import Mathlib

/-!
Verification of the SnakeByte binary-file viewer (`snakebyte.py`) against its
natural-language specification.

The development shallowly embeds the core of `BinaryFileViewer`:
`display_printable`, `format_line`, `search`, and `_append_search_results`.
Bytes are modelled as `Nat` values below 256, file content as `List Nat`,
query strings as `List Char`.  Queries are modelled over ASCII characters
(the interactive layer builds queries from single key presses); Python
`str.encode` / `str.isdigit` are modelled for that ASCII alphabet.
-/

namespace SnakeByte

/-- Endianness selector (`self.endian`, the strings `'little'` / `'big'`). -/
inductive Endian where
  | little
  | big
deriving DecidableEq, Repr

/-- The built-in codec registry (`self.encodings`, in declaration order). -/
inductive Codec where
  | ascii
  | utf8
  | latin1
  | cp1252
  | utf16le
  | utf16be
  | utf32le
  | utf32be
deriving DecidableEq, Repr

/-- Format tags recorded in `self.search_result_types`. -/
inductive Tag where
  | ascii
  | hex
  | int16le
  | int16be
  | int32le
  | int32be
  | float32le
  | float32be
deriving DecidableEq, Repr

/-- Code points of the Windows-1252 mapping for bytes `0x80`–`0x9F`
(`none` for the five bytes that are undefined in the codec and raise
`UnicodeDecodeError` in Python: 0x81, 0x8D, 0x8F, 0x90, 0x9D). -/
def cp1252High (b : Nat) : Option Nat :=
  match b with
  | 0x80 => some 0x20AC
  | 0x81 => none
  | 0x82 => some 0x201A
  | 0x83 => some 0x0192
  | 0x84 => some 0x201E
  | 0x85 => some 0x2026
  | 0x86 => some 0x2020
  | 0x87 => some 0x2021
  | 0x88 => some 0x02C6
  | 0x89 => some 0x2030
  | 0x8A => some 0x0160
  | 0x8B => some 0x2039
  | 0x8C => some 0x0152
  | 0x8D => none
  | 0x8E => some 0x017D
  | 0x8F => none
  | 0x90 => none
  | 0x91 => some 0x2018
  | 0x92 => some 0x2019
  | 0x93 => some 0x201C
  | 0x94 => some 0x201D
  | 0x95 => some 0x2022
  | 0x96 => some 0x2013
  | 0x97 => some 0x2014
  | 0x98 => some 0x02DC
  | 0x99 => some 0x2122
  | 0x9A => some 0x0161
  | 0x9B => some 0x203A
  | 0x9C => some 0x0153
  | 0x9D => none
  | 0x9E => some 0x017E
  | 0x9F => some 0x0178
  | _ => some b

/-- Python `bytes([b]).decode(codec)` for a single byte: the decoded code
point, or `none` when decoding raises `UnicodeDecodeError`.  A lone byte
never decodes under the UTF-16/UTF-32 codecs (truncated data); ASCII and
UTF-8 reject bytes ≥ 0x80; Latin-1 maps every byte to itself; CP1252 uses
the table above. -/
def decodeOne (c : Codec) (b : Nat) : Option Nat :=
  match c with
  | .ascii => if b < 128 then some b else none
  | .utf8 => if b < 128 then some b else none
  | .latin1 => some b
  | .cp1252 => cp1252High b
  | .utf16le => none
  | .utf16be => none
  | .utf32le => none
  | .utf32be => none

/-- The test `char in string.printable and char not in '\t\n\r\v\f'` from
`display_printable`: `string.printable` holds exactly the ASCII characters
0x20–0x7E plus the whitespace characters tab/LF/VT/FF/CR, and the second
conjunct removes those five, leaving exactly code points 0x20–0x7E. -/
def isCodePrintable (cp : Nat) : Bool :=
  32 ≤ cp && cp ≤ 126

/-- `display_printable(char_byte)`: returns the glyph's code point together
with the `is_error` flag.  `'.'` is code point 46 and `'?'` is 63. -/
def display_printable (c : Codec) (b : Nat) : Nat × Bool :=
  match decodeOne c b with
  | some cp => if isCodePrintable cp then (cp, false) else (46, false)
  | none => (63, true)

/-- Python `int.from_bytes(bs, byteorder)` on a list of byte values. -/
def fromBytes (e : Endian) (bs : List Nat) : Nat :=
  match e with
  | .little => bs.foldr (fun b acc => b + 256 * acc) 0
  | .big => bs.foldl (fun acc b => acc * 256 + b) 0

/-- Python `n.to_bytes(len, byteorder='little')` (the code only calls it
after the conversion is known not to overflow). -/
def toBytesLE : Nat → Nat → List Nat
  | 0, _ => []
  | k + 1, v => v % 256 :: toBytesLE k (v / 256)

/-- Python `n.to_bytes(len, byteorder='big')`. -/
def toBytesBE (k v : Nat) : List Nat :=
  (toBytesLE k v).reverse

/-- Floor of the base-2 logarithm, by halving with fuel (correct for
values below `2^32`, far beyond the `2^16` the search code encodes). -/
def log2Aux : Nat → Nat → Nat
  | 0, _ => 0
  | fuel + 1, v => if 2 ≤ v then log2Aux fuel (v / 2) + 1 else 0

/-- IEEE-754 binary32 encoding (as a 32-bit word) of a natural number that
is exactly representable (below `2^24`).  `search` only encodes values
below `2^16`, where `struct.pack('<f', float(pattern))` is exact. -/
def float32OfNat (v : Nat) : Nat :=
  if v = 0 then 0
  else
    let k := log2Aux 32 v
    (k + 127) * 2 ^ 23 + (v * 2 ^ (23 - k) - 2 ^ 23)

/-- IEEE-754 binary32 value denoted by a 32-bit word. -/
inductive F32 where
  | nan
  | inf (neg : Bool)
  | fin (q : ℚ)
deriving DecidableEq

/-- Decode a 32-bit word as an IEEE-754 binary32 value (the interpretation
performed by `struct.unpack('<f', ...)` / `('>f', ...)` once the four bytes
have been assembled into a word in the selected byte order). -/
def float32Decode (w : Nat) : F32 :=
  let s : ℚ := if w / 2 ^ 31 % 2 = 1 then -1 else 1
  let e : Nat := w / 2 ^ 23 % 2 ^ 8
  let m : Nat := w % 2 ^ 23
  if e = 255 then
    if m = 0 then .inf (decide (w / 2 ^ 31 % 2 = 1)) else .nan
  else if e = 0 then
    .fin (s * (m : ℚ) / 2 ^ 149)
  else
    .fin (s * ((2 ^ 23 + m : Nat) : ℚ) * (2 : ℚ) ^ (e : ℤ) / 2 ^ 150)

/-- Decimal digit characters of `n` (Python `f-string` rendering of an
`int`). -/
def natDec (n : Nat) : List Char :=
  Nat.toDigits 10 n

/-- Lowercase hexadecimal digit characters of `n`. -/
def natHex (n : Nat) : List Char :=
  Nat.toDigits 16 n

/-- Python `f-string` `{n:08x}`: lowercase hex left-padded with zeros to at
least eight digits. -/
def pad8Hex (n : Nat) : List Char :=
  List.replicate (8 - (natHex n).length) '0' ++ natHex n

/-- Python `f-string` `{b:02x}`: lowercase hex left-padded to at least two
digits. -/
def hex2 (b : Nat) : List Char :=
  List.replicate (2 - (natHex b).length) '0' ++ natHex b

/-- ASCII decimal digit test (`str.isdigit` restricted to the ASCII
alphabet over which queries are modelled). -/
def isDig (ch : Char) : Bool :=
  48 ≤ ch.toNat && ch.toNat ≤ 57

/-- Hexadecimal digit value of a character, if it is one. -/
def hexDigitVal (ch : Char) : Option Nat :=
  if 48 ≤ ch.toNat ∧ ch.toNat ≤ 57 then some (ch.toNat - 48)
  else if 97 ≤ ch.toNat ∧ ch.toNat ≤ 102 then some (ch.toNat - 87)
  else if 65 ≤ ch.toNat ∧ ch.toNat ≤ 70 then some (ch.toNat - 55)
  else none

/-- ASCII whitespace as skipped by CPython's `bytes.fromhex`. -/
def isAsciiWs (ch : Char) : Bool :=
  ch.toNat = 32 || (9 ≤ ch.toNat && ch.toNat ≤ 13)

/-- Python `bytes.fromhex`: skips ASCII whitespace between byte pairs; each
byte needs two adjacent hex digits; `none` models the `ValueError` raised
on any other character or on a dangling digit. -/
def pyFromHex : List Char → Option (List Nat)
  | [] => some []
  | c :: rest =>
    if isAsciiWs c then pyFromHex rest
    else
      match hexDigitVal c with
      | none => none
      | some hi =>
        match rest with
        | [] => none
        | d :: rest2 =>
          match hexDigitVal d with
          | none => none
          | some lo => (pyFromHex rest2).map (fun bs => (hi * 16 + lo) :: bs)

/-- The odd-length correction in `search`'s hex branch:
`if len(hex_val) % 2 != 0: hex_val = '0' + hex_val`. -/
def padOdd (l : List Char) : List Char :=
  if l.length % 2 = 1 then '0' :: l else l

/-- `pattern.lower().startswith('0x')`. -/
def isHexQuery : List Char → Bool
  | c0 :: c1 :: _ => c0 = '0' && (c1 = 'x' || c1 = 'X')
  | _ => false

/-- Python `int(pattern)` on a digits-only string. -/
def decimalOf (l : List Char) : Nat :=
  l.foldl (fun acc c => acc * 10 + (c.toNat - 48)) 0

/-- Python `str.encode(codec)` for the ASCII characters over which queries
are modelled. -/
def encodeChar (c : Codec) (cp : Nat) : List Nat :=
  match c with
  | .ascii => [cp]
  | .utf8 => [cp]
  | .latin1 => [cp]
  | .cp1252 => [cp]
  | .utf16le => [cp, 0]
  | .utf16be => [0, cp]
  | .utf32le => [cp, 0, 0, 0]
  | .utf32be => [0, 0, 0, cp]

/-- Encode a query under the active codec (`pattern.encode(self.encoding)`). -/
def encodeStr (c : Codec) (q : List Char) : List Nat :=
  q.flatMap (fun ch => encodeChar c ch.toNat)

/-- The candidate `(byte-pattern, format-tag)` sequence that `search`
builds inline from a query, in the order the code scans for them
(the spec calls this component `PatternExpander`):
hex branch (`0x` prefix), digits branch (ascii then the fixed-width
integer and float encodings, narrowed to ascii alone when
`num_val.to_bytes(2, ...)` raises `OverflowError` at `2^16`), plain-text
branch otherwise.  An empty candidate list models the hex branch's
`ValueError` path, where `search` returns `False` without scanning. -/
def expandQuery (enc : Codec) (q : List Char) : List (List Nat × Tag) :=
  if isHexQuery q then
    match pyFromHex (padOdd (q.drop 2)) with
    | some bs => [(bs, .hex)]
    | none => []
  else if !q.isEmpty && q.all isDig then
    let asciiBytes := encodeStr enc q
    let n := decimalOf q
    if n < 2 ^ 16 then
      [(asciiBytes, .ascii),
       (toBytesLE 2 n, .int16le), (toBytesBE 2 n, .int16be),
       (toBytesLE 4 n, .int32le), (toBytesBE 4 n, .int32be),
       (toBytesLE 4 (float32OfNat n), .float32le),
       (toBytesBE 4 (float32OfNat n), .float32be)]
    else
      [(asciiBytes, .ascii)]
  else
    [(encodeStr enc q, .ascii)]

/-- `pattern` occurs in `content` starting at position `p`. -/
def occursAt (content pat : List Nat) (p : Nat) : Prop :=
  p + pat.length ≤ content.length ∧ (content.drop p).take pat.length = pat

instance (content pat : List Nat) (p : Nat) : Decidable (occursAt content pat p) :=
  inferInstanceAs (Decidable (_ ∧ _))

/-- The byte-window comparison performed by `bytes.find` at one position. -/
def matchAt (content pat : List Nat) (p : Nat) : Bool :=
  decide ((content.drop p).take pat.length = pat)

/-- Scanning loop of Python `content.find(pattern, start)`; the fuel
argument only bounds the scan, `pyFind` below supplies enough of it. -/
def pyFindAux (content pat : List Nat) : Nat → Nat → Option Nat
  | 0, _ => none
  | fuel + 1, start =>
    if start + pat.length ≤ content.length then
      if matchAt content pat start then some start
      else pyFindAux content pat fuel (start + 1)
    else none

/-- Python `content.find(pattern, start)`: the least occurrence position
`≥ start`, or `none` for `-1`. -/
def pyFind (content pat : List Nat) (start : Nat) : Option Nat :=
  pyFindAux content pat (content.length + 1 - start) start

/-- The `while start < self.file_size` loop of `_append_search_results`:
record each found position and resume one byte past it.  The fuel argument
only bounds the loop, `appendLoop` below supplies enough of it. -/
def appendLoopAux (content pat : List Nat) : Nat → Nat → List Nat
  | 0, _ => []
  | fuel + 1, start =>
    if start < content.length then
      match pyFind content pat start with
      | none => []
      | some pos => pos :: appendLoopAux content pat fuel (pos + 1)
    else []

/-- The hit offsets produced by `_append_search_results(pattern, from_offset)`. -/
def appendLoop (content pat : List Nat) (start : Nat) : List Nat :=
  appendLoopAux content pat (content.length - start) start

/-- The viewer state touched by the embedded core (`BinaryFileViewer`
fields; `file_size` is the length of `content`, `bytes_per_line` is the
constant 16). -/
structure Viewer where
  content : List Nat
  encoding : Codec
  endian : Endian
  displayShift : Nat
  showValues : Bool
  currentOffset : Nat
  searchPattern : Option (List Char)
  searchResults : List Nat
  searchResultTypes : List Tag
  currentSearchIdx : Int
deriving DecidableEq

/-- The state produced by `__init__` for a given file content
(`display_shift = 0`, encoding `ascii`, little endian, values shown,
no search yet). -/
def mkViewer (content : List Nat) : Viewer :=
  { content := content
    encoding := .ascii
    endian := .little
    displayShift := 0
    showValues := true
    currentOffset := 0
    searchPattern := none
    searchResults := []
    searchResultTypes := []
    currentSearchIdx := -1 }

/-- `_append_search_results(pattern, from_offset, match_type)`: append
every scan hit to `search_results` and its tag to `search_result_types`. -/
def appendSearchResults (v : Viewer) (pat : List Nat) (fromOffset : Nat)
    (tag : Tag) : Viewer :=
  let hits := appendLoop v.content pat fromOffset
  { v with
    searchResults := v.searchResults ++ hits
    searchResultTypes := v.searchResultTypes ++ List.replicate hits.length tag }

/-- `search(pattern, from_offset)`: reset the search state, scan for each
candidate pattern in turn, and when at least one hit exists move the
cursor to index 0 and the viewer to the first hit's offset.  Every branch
of the Python method reduces to this shape: the hex branch's `ValueError`
path is the empty candidate list, and the in-branch returns coincide with
the shared tail at line 289. -/
def search (v : Viewer) (pattern : List Char) (fromOffset : Nat) :
    Viewer × Bool :=
  let v1 := { v with
    searchPattern := some pattern
    searchResults := []
    searchResultTypes := []
    currentSearchIdx := -1 }
  let v2 := (expandQuery v.encoding pattern).foldl
    (fun w c => appendSearchResults w c.1 fromOffset c.2) v1
  match v2.searchResults with
  | [] => (v2, false)
  | h0 :: _ => ({ v2 with currentSearchIdx := 0, currentOffset := h0 }, true)

/-- The raw byte window the render loop passes to `format_line`:
`self.file_content[offset:min(offset + 16, self.file_size)]`. -/
def rawWindow (content : List Nat) (offset : Nat) : List Nat :=
  (content.drop offset).take (min (offset + 16) content.length - offset)

/-- The shift adjustment of `format_line` (lines 144–157): for a non-zero
`display_shift` the displayed window starts `shift` bytes earlier
(clamped), and near the start of the file it is left-padded with zero
bytes and truncated back to the line width. -/
def displayWindow (v : Viewer) (offset : Nat) (data : List Nat) : List Nat :=
  if v.displayShift ≠ 0 then
    let shiftStart := offset - v.displayShift
    let shiftEnd := min v.content.length (shiftStart + 16)
    let d0 := (v.content.drop shiftStart).take (shiftEnd - shiftStart)
    if offset < v.displayShift then
      (List.replicate (v.displayShift - offset) 0 ++ d0).take 16
    else d0
  else data

/-- The hex column of `format_line`: two hex digits and a space per byte,
with one extra space after the 8th byte. -/
def hexSection (dd : List Nat) : List Char :=
  (dd.enum.map fun p =>
    hex2 p.2 ++ [' '] ++ if p.1 = 7 then [' '] else []).flatten

/-- `str.ljust`: right-pad with spaces to the given width (the hex column
is padded to `3 * 16 + 2 = 50`). -/
def ljust (l : List Char) (w : Nat) : List Char :=
  l ++ List.replicate (w - l.length) ' '

/-- The character-column loop of `format_line`: one glyph per displayed
byte, collecting the in-line indices whose decode failed. -/
def charLoop (c : Codec) : List Nat → Nat → List Char × List Nat
  | [], _ => ([], [])
  | b :: rest, i =>
    let g := display_printable c b
    let r := charLoop c rest (i + 1)
    (Char.ofNat g.1 :: r.1, if g.2 then i :: r.2 else r.2)

/-- The numeric-interpretation suffix of `format_line` (lines 185–204).
`natDec` renders the integers as Python's f-string does; `renderF32`
stands in for the `{float_val:.6g}` decimal rendering of the decoded
IEEE-754 value, whose exact digit string is not modelled (no claim
inspects the float's characters). -/
def renderF32 : F32 → List Char
  | .nan => ['n', 'a', 'n']
  | .inf neg => if neg then ['-', 'i', 'n', 'f'] else ['i', 'n', 'f']
  | .fin q => natDec q.num.natAbs ++ ['/'] ++ natDec q.den

/-- The `int16: `/`int32: `/`float: ` suffixes appended when
`show_values` is on and the display window has at least four bytes. -/
def valueSuffix (v : Viewer) (dd : List Nat) : List Char :=
  if v.showValues ∧ 4 ≤ dd.length then
    (if 2 ≤ dd.length then
      (" int16: ").toList ++ natDec (fromBytes v.endian (dd.take 2))
     else []) ++
    (if 4 ≤ dd.length then
      (" int32: ").toList ++ natDec (fromBytes v.endian (dd.take 4))
     else []) ++
    (if 4 ≤ dd.length then
      (" float: ").toList ++
        renderF32 (float32Decode (fromBytes v.endian (dd.take 4)))
     else [])
  else []

/-- `format_line(offset, data)`: the rendered line (as its character
list) and the list of char-column indices with decode errors.  Layout:
address column, padded hex column, bar-delimited character column, value
suffixes. -/
def format_line (v : Viewer) (offset : Nat) (data : List Nat) :
    List Char × List Nat :=
  let dd := displayWindow v offset data
  let cs := charLoop v.encoding dd 0
  (pad8Hex offset ++ [':', ' '] ++ ljust (hexSection dd) 50 ++
    [' ', '│'] ++ cs.1 ++ ['│'] ++ valueSuffix v dd,
   cs.2)

theorem pyFindAux_some {content pat : List Nat} :
    ∀ {fuel start pos : Nat}, pyFindAux content pat fuel start = some pos →
      start ≤ pos ∧ occursAt content pat pos ∧
        ∀ q, start ≤ q → q < pos → ¬ occursAt content pat q := by
  intro fuel
  induction fuel with
  | zero => intro start pos h; simp [pyFindAux] at h
  | succ n ih =>
    intro start pos h
    simp only [pyFindAux] at h
    by_cases hg : start + pat.length ≤ content.length
    · rw [if_pos hg] at h
      cases hm : matchAt content pat start with
      | true =>
        rw [hm, if_pos rfl] at h
        obtain rfl : start = pos := by simpa using h
        exact ⟨le_refl _, ⟨hg, of_decide_eq_true hm⟩, fun q hq1 hq2 => by omega⟩
      | false =>
        rw [hm] at h
        simp only [Bool.false_eq_true, if_false] at h
        obtain ⟨h1, h2, h3⟩ := ih h
        refine ⟨by omega, h2, ?_⟩
        intro q hq1 hq2
        rcases Nat.eq_or_lt_of_le hq1 with heq | hq
        · subst heq
          intro hocc
          have hmt : matchAt content pat start = true := decide_eq_true hocc.2
          rw [hm] at hmt
          exact Bool.false_ne_true hmt
        · exact h3 q (by omega) hq2
    · rw [if_neg hg] at h
      exact absurd h (by simp)

theorem pyFindAux_none {content pat : List Nat} :
    ∀ {fuel start : Nat}, content.length + 1 ≤ fuel + start →
      pyFindAux content pat fuel start = none →
      ∀ q, start ≤ q → ¬ occursAt content pat q := by
  intro fuel
  induction fuel with
  | zero =>
    intro start hfuel _ q hq hocc
    have := hocc.1
    omega
  | succ n ih =>
    intro start hfuel h
    simp only [pyFindAux] at h
    by_cases hg : start + pat.length ≤ content.length
    · rw [if_pos hg] at h
      cases hm : matchAt content pat start with
      | true => rw [hm, if_pos rfl] at h; exact absurd h (by simp)
      | false =>
        rw [hm] at h
        simp only [Bool.false_eq_true, if_false] at h
        intro q hq hocc
        rcases Nat.eq_or_lt_of_le hq with heq | hq'
        · subst heq
          have hmt : matchAt content pat start = true := decide_eq_true hocc.2
          rw [hm] at hmt
          exact Bool.false_ne_true hmt
        · exact ih (by omega) h q (by omega) hocc
    · intro q hq hocc
      have := hocc.1
      omega

theorem pyFind_some {content pat : List Nat} {start pos : Nat}
    (h : pyFind content pat start = some pos) :
    start ≤ pos ∧ occursAt content pat pos ∧
      ∀ q, start ≤ q → q < pos → ¬ occursAt content pat q :=
  pyFindAux_some h

theorem pyFind_none {content pat : List Nat} {start : Nat}
    (h : pyFind content pat start = none) :
    ∀ q, start ≤ q → ¬ occursAt content pat q :=
  pyFindAux_none (by omega) h

theorem appendLoopAux_ge {content pat : List Nat} :
    ∀ {fuel start p : Nat}, p ∈ appendLoopAux content pat fuel start →
      start ≤ p := by
  intro fuel
  induction fuel with
  | zero => intro start p h; simp [appendLoopAux] at h
  | succ n ih =>
    intro start p h
    simp only [appendLoopAux] at h
    by_cases hg : start < content.length
    · rw [if_pos hg] at h
      cases hf : pyFind content pat start with
      | none => rw [hf] at h; simp at h
      | some pos =>
        rw [hf] at h
        rcases List.mem_cons.mp h with rfl | h2
        · exact (pyFind_some hf).1
        · have := ih h2
          have := (pyFind_some hf).1
          omega
    · rw [if_neg hg] at h; simp at h

theorem appendLoopAux_sorted {content pat : List Nat} :
    ∀ {fuel start : Nat},
      List.Sorted (· < ·) (appendLoopAux content pat fuel start) := by
  intro fuel
  induction fuel with
  | zero => intro start; simp [appendLoopAux]
  | succ n ih =>
    intro start
    simp only [appendLoopAux]
    by_cases hg : start < content.length
    · rw [if_pos hg]
      cases hf : pyFind content pat start with
      | none => simp
      | some pos =>
        refine List.sorted_cons.mpr ⟨fun b hb => ?_, ih⟩
        have := appendLoopAux_ge hb
        omega
    · rw [if_neg hg]; simp

theorem appendLoopAux_mem {content pat : List Nat} (hp : pat ≠ []) :
    ∀ {fuel start p : Nat}, content.length ≤ fuel + start →
      (p ∈ appendLoopAux content pat fuel start ↔
        start ≤ p ∧ occursAt content pat p) := by
  have hplen : 1 ≤ pat.length := by
    cases pat with
    | nil => exact absurd rfl hp
    | cons a l => simp
  intro fuel
  induction fuel with
  | zero =>
    intro start p hfuel
    simp only [appendLoopAux, List.not_mem_nil, false_iff]
    rintro ⟨hsp, hocc⟩
    have := hocc.1
    omega
  | succ n ih =>
    intro start p hfuel
    simp only [appendLoopAux]
    by_cases hg : start < content.length
    · rw [if_pos hg]
      cases hf : pyFind content pat start with
      | none =>
        simp only [List.not_mem_nil, false_iff]
        rintro ⟨hsp, hocc⟩
        exact pyFind_none hf p hsp hocc
      | some pos =>
        obtain ⟨hsp, hocc, hmin⟩ := pyFind_some hf
        rw [List.mem_cons, ih (by omega)]
        constructor
        · rintro (rfl | ⟨h1, h2⟩)
          · exact ⟨hsp, hocc⟩
          · exact ⟨by omega, h2⟩
        · rintro ⟨h1, h2⟩
          rcases Nat.lt_or_ge p (pos + 1) with hlt | hge
          · left
            rcases Nat.lt_or_ge p pos with hlt2 | hge2
            · exact absurd h2 (hmin p h1 hlt2)
            · omega
          · right
            exact ⟨hge, h2⟩
    · rw [if_neg hg]
      simp only [List.not_mem_nil, false_iff]
      rintro ⟨hsp, hocc⟩
      have := hocc.1
      omega

theorem appendLoop_sorted (content pat : List Nat) (start : Nat) :
    List.Sorted (· < ·) (appendLoop content pat start) :=
  appendLoopAux_sorted

theorem appendLoop_mem {content pat : List Nat} (hp : pat ≠ [])
    (start p : Nat) :
    p ∈ appendLoop content pat start ↔
      start ≤ p ∧ occursAt content pat p :=
  appendLoopAux_mem hp (by omega)

theorem appendLoopAux_empty_pat (content : List Nat) :
    ∀ (fuel start : Nat), content.length ≤ fuel + start →
      appendLoopAux content [] fuel start =
        List.range' start (content.length - start) := by
  intro fuel
  induction fuel with
  | zero =>
    intro start hfuel
    have : content.length - start = 0 := by omega
    simp [appendLoopAux, this]
  | succ n ih =>
    intro start hfuel
    simp only [appendLoopAux]
    by_cases hg : start < content.length
    · rw [if_pos hg]
      have hfind : pyFind content [] start = some start := by
        have h1 : content.length + 1 - start = (content.length - start) + 1 := by
          omega
        rw [pyFind, h1]
        simp [pyFindAux, matchAt]
        omega
      rw [hfind]
      show start :: appendLoopAux content [] n (start + 1) = _
      rw [ih (start + 1) (by omega)]
      have h2 : content.length - start = (content.length - (start + 1)) + 1 := by
        omega
      rw [h2, List.range'_succ]
    · rw [if_neg hg]
      have : content.length - start = 0 := by omega
      simp [this]

theorem appendLoop_empty_pat (content : List Nat) (start : Nat) :
    appendLoop content [] start =
      List.range' start (content.length - start) :=
  appendLoopAux_empty_pat content _ start (by omega)

theorem foldl_appendSearchResults (f : Nat) :
    ∀ (l : List (List Nat × Tag)) (w : Viewer),
      l.foldl (fun w c => appendSearchResults w c.1 f c.2) w =
        { w with
          searchResults := w.searchResults ++
            l.flatMap (fun c => appendLoop w.content c.1 f)
          searchResultTypes := w.searchResultTypes ++
            l.flatMap (fun c =>
              List.replicate (appendLoop w.content c.1 f).length c.2) } := by
  intro l
  induction l with
  | nil => intro w; simp
  | cons c l ih =>
    intro w
    rw [List.foldl_cons, ih]
    simp [appendSearchResults, List.append_assoc]

theorem search_eq (v : Viewer) (pattern : List Char) (f : Nat) :
    search v pattern f =
      let results := (expandQuery v.encoding pattern).flatMap
        (fun c => appendLoop v.content c.1 f)
      let v2 : Viewer := { v with
        searchPattern := some pattern
        searchResults := results
        searchResultTypes := (expandQuery v.encoding pattern).flatMap
          (fun c => List.replicate (appendLoop v.content c.1 f).length c.2)
        currentSearchIdx := -1 }
      match results with
      | [] => (v2, false)
      | h0 :: _ => ({ v2 with currentSearchIdx := 0, currentOffset := h0 }, true) := by
  simp only [search, foldl_appendSearchResults, List.nil_append]

theorem search_results_flatMap (v : Viewer) (q : List Char) (f : Nat) :
    (search v q f).1.searchResults =
      (expandQuery v.encoding q).flatMap
        (fun c => appendLoop v.content c.1 f) := by
  rw [search_eq]
  cases hr : (expandQuery v.encoding q).flatMap
      (fun c => appendLoop v.content c.1 f) with
  | nil => simp [hr]
  | cons h0 t => simp [hr]

theorem search_types_flatMap (v : Viewer) (q : List Char) (f : Nat) :
    (search v q f).1.searchResultTypes =
      (expandQuery v.encoding q).flatMap
        (fun c => List.replicate (appendLoop v.content c.1 f).length c.2) := by
  rw [search_eq]
  cases hr : (expandQuery v.encoding q).flatMap
      (fun c => appendLoop v.content c.1 f) with
  | nil => simp [hr]
  | cons h0 t => simp [hr]

/-- C5: for every (nonempty) candidate pattern and `from_offset`, the scan
of `_append_search_results` reports a hit at every occurrence starting at
or after `from_offset`, in strictly ascending offset order (so overlapping
occurrences at distinct starts are all reported); `search` appends each
candidate's hits before the next candidate's with no global re-sorting or
deduplication; and the bytes `aaab` searched for ASCII `a` from offset 0
yield hits `[0, 1, 2]`. -/
theorem append_search_scan_complete (content pat : List Nat)
    (fromOffset : Nat) (hp : pat ≠ []) :
    List.Sorted (· < ·) (appendLoop content pat fromOffset) ∧
    (∀ p, p ∈ appendLoop content pat fromOffset ↔
      fromOffset ≤ p ∧ occursAt content pat p) ∧
    (∀ (v : Viewer) (q : List Char),
      (search v q fromOffset).1.searchResults =
        (expandQuery v.encoding q).flatMap
          (fun c => appendLoop v.content c.1 fromOffset)) ∧
    appendLoop [97, 97, 97, 98] [97] 0 = [0, 1, 2] :=
  ⟨appendLoop_sorted _ _ _,
   fun p => appendLoop_mem hp _ _,
   fun v q => search_results_flatMap v q fromOffset,
   by decide⟩

/-- C5 witness: the scan characterization at the spec's own example,
file bytes `aaab` and pattern `a` from offset 0. -/
theorem append_search_scan_complete_witness :
    ([97] ≠ ([] : List Nat)) ∧
    (List.Sorted (· < ·) (appendLoop [97, 97, 97, 98] [97] 0) ∧
     (∀ p, p ∈ appendLoop [97, 97, 97, 98] [97] 0 ↔
       0 ≤ p ∧ occursAt [97, 97, 97, 98] [97] p) ∧
     (∀ (v : Viewer) (q : List Char),
       (search v q 0).1.searchResults =
         (expandQuery v.encoding q).flatMap
           (fun c => appendLoop v.content c.1 0)) ∧
     appendLoop [97, 97, 97, 98] [97] 0 = [0, 1, 2]) :=
  ⟨by decide, append_search_scan_complete [97, 97, 97, 98] [97] 0 (by decide)⟩

/-- C1 counterexample: on the one-byte file `[0]`, `search` invoked with
the empty-string query returns `True` with hit list `[0]` — the empty
query is not rejected; it falls into the plain-text branch, encodes to
the empty byte pattern, and `find` matches it at every offset. -/
theorem empty_query_counterexample :
    (search (mkViewer [0]) [] 0).2 = true ∧
    (search (mkViewer [0]) [] 0).1.searchResults = [0] := by
  decide

/-- C1 amended: an empty query produces the single empty `ascii` candidate
(`"".encode`), whose scan hits every offset from `from_offset` to the end
of the file; `search` therefore returns `True` exactly when
`from_offset < file_size`, not unconditionally `False`. -/
theorem empty_query_scans_empty_pattern (v : Viewer) (fromOffset : Nat) :
    (search v [] fromOffset).1.searchResults =
      List.range' fromOffset (v.content.length - fromOffset) ∧
    (search v [] fromOffset).1.searchResultTypes =
      List.replicate (v.content.length - fromOffset) Tag.ascii ∧
    (search v [] fromOffset).2 = decide (fromOffset < v.content.length) := by
  have hexp : expandQuery v.encoding [] = [([], Tag.ascii)] := by
    cases v.encoding <;> rfl
  refine ⟨?_, ?_, ?_⟩
  · rw [search_results_flatMap, hexp, List.flatMap_cons, List.flatMap_nil,
      List.append_nil, appendLoop_empty_pat]
  · rw [search_types_flatMap, hexp, List.flatMap_cons, List.flatMap_nil,
      List.append_nil, appendLoop_empty_pat, List.length_range']
  · rcases Nat.lt_or_ge fromOffset v.content.length with hlt | hge
    · obtain ⟨k, hk⟩ : ∃ k, v.content.length - fromOffset = k + 1 :=
        ⟨v.content.length - fromOffset - 1, by omega⟩
      rw [search_eq]
      simp [hexp, appendLoop_empty_pat, hk, List.range'_succ, hlt]
    · have h0 : v.content.length - fromOffset = 0 := by omega
      rw [search_eq]
      simp [hexp, appendLoop_empty_pat, h0]
      omega

/-- C10: whenever `search` returns `True` it has moved `current_offset`
to the first hit of the freshly built hit list; whenever it returns
`False` the current offset is untouched. -/
theorem search_sets_offset_iff_hit (v : Viewer) (pattern : List Char)
    (fromOffset : Nat) :
    ((search v pattern fromOffset).2 = true →
      (search v pattern fromOffset).1.searchResults.head? =
        some (search v pattern fromOffset).1.currentOffset) ∧
    ((search v pattern fromOffset).2 = false →
      (search v pattern fromOffset).1.currentOffset = v.currentOffset) := by
  rw [search_eq]
  cases hr : (expandQuery v.encoding pattern).flatMap
      (fun c => appendLoop v.content c.1 fromOffset) with
  | nil => simp [hr]
  | cons h0 t => simp [hr]

/-- C10 witness: a hitting search lands on its first hit, and a missing
search leaves the offset where it was. -/
theorem search_sets_offset_iff_hit_witness :
    (search (mkViewer [65]) ['A'] 0).1.searchResults.head? =
      some (search (mkViewer [65]) ['A'] 0).1.currentOffset ∧
    (search (mkViewer [66]) ['A'] 0).1.currentOffset =
      (mkViewer [66]).currentOffset :=
  ⟨(search_sets_offset_iff_hit (mkViewer [65]) ['A'] 0).1 (by decide),
   (search_sets_offset_iff_hit (mkViewer [66]) ['A'] 0).2 (by decide)⟩

/-- C7 counterexample: the query `0x41  42` has characters after the `0x`
prefix that are not hex digits (two spaces), yet `search` does not treat
it as "no match": `bytes.fromhex` skips the whitespace and the search for
bytes `41 42` on the file `[0x41, 0x42]` returns `True` with a hit at 0. -/
theorem hex_whitespace_query_counterexample :
    ((['0', 'x', '4', '1', ' ', ' ', '4', '2'].drop 2).all
      (fun ch => (hexDigitVal ch).isSome) = false) ∧
    (search (mkViewer [65, 66]) ['0', 'x', '4', '1', ' ', ' ', '4', '2'] 0).2
      = true ∧
    (search (mkViewer [65, 66])
      ['0', 'x', '4', '1', ' ', ' ', '4', '2'] 0).1.searchResults = [0] := by
  decide

/-- C7 amended: a `0x`-prefixed query whose remainder (after the odd-length
pad) is rejected by `bytes.fromhex` — a character that is neither a hex
digit nor ASCII whitespace, or a hex digit without a second digit directly
after it — makes `search` return `False` with empty hit and tag lists and
cursor `-1`, every other field (including the current offset) unchanged;
and any search that finds at least one hit resets the cursor to index 0. -/
theorem malformed_hex_query_recovers (v : Viewer) (q : List Char)
    (fromOffset : Nat) :
    (isHexQuery q = true → pyFromHex (padOdd (q.drop 2)) = none →
      search v q fromOffset =
        ({ v with
            searchPattern := some q
            searchResults := []
            searchResultTypes := []
            currentSearchIdx := -1 }, false)) ∧
    ((search v q fromOffset).2 = true →
      (search v q fromOffset).1.currentSearchIdx = 0) := by
  constructor
  · intro hhex hnone
    have hexp : expandQuery v.encoding q = [] := by
      unfold expandQuery
      rw [if_pos hhex, hnone]
    rw [search_eq]
    simp [hexp]
  · intro htrue
    rw [search_eq] at htrue ⊢
    cases hr : (expandQuery v.encoding q).flatMap
        (fun c => appendLoop v.content c.1 fromOffset) with
    | nil => simp [hr] at htrue
    | cons h0 t => simp [hr]

/-- C7 witness: the malformed query `0xzz` yields `False` with cleared
search state, and a hitting search resets the cursor to 0. -/
theorem malformed_hex_query_recovers_witness :
    search (mkViewer [65]) ['0', 'x', 'z', 'z'] 0 =
      ({ mkViewer [65] with
          searchPattern := some ['0', 'x', 'z', 'z']
          searchResults := []
          searchResultTypes := []
          currentSearchIdx := -1 }, false) ∧
    (search (mkViewer [66]) ['B'] 0).1.currentSearchIdx = 0 :=
  ⟨(malformed_hex_query_recovers (mkViewer [65]) ['0', 'x', 'z', 'z'] 0).1
      (by decide) (by decide),
   (malformed_hex_query_recovers (mkViewer [66]) ['B'] 0).2 (by decide)⟩

/-- Hex decoding as the spec describes it: consume the (padded) digit
string two hex digits at a time, high nibble first. -/
def specHexBytes : List Char → List Nat
  | hi :: lo :: rest =>
    ((hexDigitVal hi).getD 0 * 16 + (hexDigitVal lo).getD 0) :: specHexBytes rest
  | _ => []

theorem hexDigitVal_not_ws {ch : Char} (h : (hexDigitVal ch).isSome = true) :
    isAsciiWs ch = false := by
  have h48 : 48 ≤ ch.toNat := by
    unfold hexDigitVal at h
    split_ifs at h with h1 h2 h3
    · omega
    · omega
    · omega
    · simp at h
  simp only [isAsciiWs, Bool.or_eq_false_iff]
  constructor
  · simp only [decide_eq_false_iff_not]
    omega
  · simp only [Bool.and_eq_false_iff, decide_eq_false_iff_not]
    right
    omega

theorem pyFromHex_allHex :
    ∀ (n : Nat) (l : List Char), l.length ≤ n →
      l.all (fun ch => (hexDigitVal ch).isSome) = true → l.length % 2 = 0 →
      pyFromHex l = some (specHexBytes l) := by
  intro n
  induction n with
  | zero =>
    intro l hlen _ _
    have : l = [] := List.eq_nil_of_length_eq_zero (by omega)
    subst this
    rfl
  | succ m ih =>
    intro l hlen hall heven
    match l with
    | [] => rfl
    | [c] => simp at heven
    | c :: d :: rest =>
      simp only [List.all_cons, Bool.and_eq_true] at hall
      obtain ⟨hc, hd, hrest⟩ := hall
      obtain ⟨hi, hhi⟩ := Option.isSome_iff_exists.mp hc
      obtain ⟨lo, hlo⟩ := Option.isSome_iff_exists.mp hd
      have hws := hexDigitVal_not_ws hc
      simp only [pyFromHex, hws, Bool.false_eq_true, if_false, hhi, hlo]
      have hlen2 : rest.length ≤ m := by
        simp at hlen
        omega
      have heven2 : rest.length % 2 = 0 := by
        simp at heven
        omega
      rw [ih rest hlen2 hrest heven2]
      simp only [specHexBytes, hhi, hlo, Option.getD_some]
      rfl

theorem padOdd_allHex {l : List Char}
    (h : l.all (fun ch => (hexDigitVal ch).isSome) = true) :
    (padOdd l).all (fun ch => (hexDigitVal ch).isSome) = true := by
  unfold padOdd
  split_ifs with h1
  · rw [List.all_cons, h]
    decide
  · exact h

theorem padOdd_even (l : List Char) : (padOdd l).length % 2 = 0 := by
  unfold padOdd
  split_ifs with h1
  · simp
    omega
  · omega

/-- C8: a `0x`-prefixed query made only of hex digits expands to exactly
one candidate tagged `hex`, whose bytes are the two-digit-at-a-time decode
of the remainder after the odd-length single-`0` left pad. -/
theorem hex_query_single_candidate (enc : Codec) (c1 : Char)
    (rest : List Char) (hx : c1 = 'x' ∨ c1 = 'X')
    (hhex : rest.all (fun ch => (hexDigitVal ch).isSome) = true) :
    expandQuery enc ('0' :: c1 :: rest) =
      [(specHexBytes (padOdd rest), Tag.hex)] := by
  have hq : isHexQuery ('0' :: c1 :: rest) = true := by
    rcases hx with rfl | rfl <;> rfl
  unfold expandQuery
  rw [if_pos hq]
  have : pyFromHex (padOdd (('0' :: c1 :: rest).drop 2)) =
      some (specHexBytes (padOdd rest)) := by
    show pyFromHex (padOdd rest) = _
    exact pyFromHex_allHex (padOdd rest).length (padOdd rest) (le_refl _)
      (padOdd_allHex hhex) (padOdd_even rest)
  rw [this]

/-- C8 witness: the query `0x41` yields exactly the single byte `0x41`
tagged `hex`. -/
theorem hex_query_single_candidate_witness :
    expandQuery Codec.ascii ['0', 'x', '4', '1'] = [([65], Tag.hex)] :=
  (hex_query_single_candidate Codec.ascii 'x' ['4', '1'] (Or.inl rfl)
    (by decide)).trans (by decide)

theorem isHexQuery_eq_false_of_digits {q : List Char}
    (h : q.all isDig = true) : isHexQuery q = false := by
  match q with
  | [] => rfl
  | [c0] => rfl
  | c0 :: c1 :: rest =>
    simp only [List.all_cons, Bool.and_eq_true] at h
    obtain ⟨h0, h1, _⟩ := h
    have hx : c1 ≠ 'x' := by
      intro he
      subst he
      exact absurd h1 (by decide)
    have hX : c1 ≠ 'X' := by
      intro he
      subst he
      exact absurd h1 (by decide)
    simp [isHexQuery, hx, hX]

/-- C2 counterexample: the digits-only query `65536` has value
`2^16 ≤ 65536 ≤ 2^32 - 1`, yet the candidate set is narrowed to the single
`ascii` candidate — `num_val.to_bytes(2, ...)` raises `OverflowError`
already at `2^16`, so the claimed full expansion for all values up to
`2^32 - 1` does not hold. -/
theorem numeric_expansion_counterexample :
    ¬ (∀ (enc : Codec) (q : List Char), q ≠ [] → q.all isDig = true →
        decimalOf q < 2 ^ 32 →
        (expandQuery enc q).map Prod.snd =
          [Tag.ascii, Tag.int16le, Tag.int16be, Tag.int32le, Tag.int32be,
           Tag.float32le, Tag.float32be]) := by
  intro h
  have h2 := h Codec.ascii ['6', '5', '5', '3', '6'] (by decide) (by decide)
    (by decide)
  exact absurd h2 (by decide)

/-- C2 amended: a digits-only query whose value fits 16 bits expands into
the seven candidates in the fixed order ascii, int16le, int16be, int32le,
int32be, float32le, float32be (the value always parses as a finite float
there); any value of `2^16` or more — not `2^32` — narrows the candidate
set to the single `ascii` candidate, because the 16-bit conversion is the
first to overflow and its handler skips every further expansion. -/
theorem numeric_expansion_threshold (enc : Codec) (q : List Char)
    (hne : q ≠ []) (hdig : q.all isDig = true) :
    (decimalOf q < 2 ^ 16 →
      expandQuery enc q =
        [(encodeStr enc q, Tag.ascii),
         (toBytesLE 2 (decimalOf q), Tag.int16le),
         (toBytesBE 2 (decimalOf q), Tag.int16be),
         (toBytesLE 4 (decimalOf q), Tag.int32le),
         (toBytesBE 4 (decimalOf q), Tag.int32be),
         (toBytesLE 4 (float32OfNat (decimalOf q)), Tag.float32le),
         (toBytesBE 4 (float32OfNat (decimalOf q)), Tag.float32be)]) ∧
    (2 ^ 16 ≤ decimalOf q →
      expandQuery enc q = [(encodeStr enc q, Tag.ascii)]) := by
  have hhex := isHexQuery_eq_false_of_digits hdig
  have hemp : q.isEmpty = false := by
    cases q with
    | nil => exact absurd rfl hne
    | cons a l => rfl
  constructor
  · intro hn
    unfold expandQuery
    rw [if_neg (by simp [hhex]), if_pos (by simp [hemp, hdig]), if_pos hn]
  · intro hn
    unfold expandQuery
    rw [if_neg (by simp [hhex]), if_pos (by simp [hemp, hdig]),
      if_neg (by omega)]

set_option maxRecDepth 100000 in
/-- C2 witness: the spec's own example `65` (value below `2^16`) expands
to the seven candidates in order: ASCII bytes `"65"`, `0x0041` little- and
big-endian in 16 and 32 bits, and the float32 encodings of `65.0`
(`0x42820000`). -/
theorem numeric_expansion_threshold_witness :
    expandQuery Codec.ascii ['6', '5'] =
      [([54, 53], Tag.ascii),
       ([65, 0], Tag.int16le), ([0, 65], Tag.int16be),
       ([65, 0, 0, 0], Tag.int32le), ([0, 0, 0, 65], Tag.int32be),
       ([0, 0, 130, 66], Tag.float32le), ([66, 130, 0, 0], Tag.float32be)] :=
  ((numeric_expansion_threshold Codec.ascii ['6', '5'] (by decide)
      (by decide)).1 (by decide)).trans (by decide)

/-- Printability in the claim's sense — not a control character, not a
whitespace variant other than plain space, not an otherwise non-printable
category (Python `str.isprintable`) — tabulated for the code points a
single-byte decode can produce: the Latin-1 range 0–255 (C0/C1 controls,
NBSP and SOFT HYPHEN are the non-printables) and the Windows-1252 special
code points above 255, which are all printable. -/
def specPrintable (cp : Nat) : Bool :=
  (32 ≤ cp && cp ≤ 126) || (161 ≤ cp && cp ≤ 255 && cp ≠ 173) || 256 ≤ cp

/-- C3 counterexample: byte `0xE9` decodes under `latin-1` to `é`
(U+00E9), a printable letter, yet `display_printable` renders it as `'.'`
(code point 46) — the code tests membership in the ASCII-only
`string.printable`, so a successfully decoded printable character is not
always rendered as itself. -/
theorem printable_nonascii_counterexample :
    ¬ (∀ (c : Codec) (b cp : Nat), decodeOne c b = some cp →
        (specPrintable cp = true → display_printable c b = (cp, false)) ∧
        (specPrintable cp = false → display_printable c b = (46, false))) := by
  intro h
  have h2 := (h Codec.latin1 233 233 rfl).1 (by decide)
  exact absurd h2 (by decide)

/-- C3 amended: a successfully decoded character is rendered as itself
exactly when it is ASCII-printable (code point 0x20–0x7E, i.e. in
`string.printable` minus the five whitespace escapes); every other decoded
character — including printable non-ASCII glyphs — gets `'.'` with the
dot status (`is_error = False`). -/
theorem decode_printable_ascii_only (c : Codec) (b cp : Nat)
    (h : decodeOne c b = some cp) :
    (isCodePrintable cp = true → display_printable c b = (cp, false)) ∧
    (isCodePrintable cp = false → display_printable c b = (46, false)) := by
  unfold display_printable
  rw [h]
  constructor <;> intro hp <;> simp [hp]

/-- C3 witness: `A` under ascii renders as itself; `é` under latin-1
renders as `'.'`. -/
theorem decode_printable_ascii_only_witness :
    display_printable Codec.ascii 65 = (65, false) ∧
    display_printable Codec.latin1 233 = (46, false) :=
  ⟨(decode_printable_ascii_only Codec.ascii 65 65 (by decide)).1 (by decide),
   (decode_printable_ascii_only Codec.latin1 233 233 (by decide)).2
     (by decide)⟩

theorem charLoop_errs (c : Codec) :
    ∀ (bs : List Nat) (i : Nat),
      (charLoop c bs i).2 =
        ((List.enumFrom i bs).filter
          (fun p => (display_printable c p.2).2)).map Prod.fst := by
  intro bs
  induction bs with
  | nil => intro i; rfl
  | cons b rest ih =>
    intro i
    cases hg : (display_printable c b).2 with
    | true => simp [charLoop, List.enumFrom, List.filter, hg, ih]
    | false => simp [charLoop, List.enumFrom, List.filter, hg, ih]

theorem charLoop_length (c : Codec) :
    ∀ (bs : List Nat) (i : Nat), (charLoop c bs i).1.length = bs.length := by
  intro bs
  induction bs with
  | nil => intro i; rfl
  | cons b rest ih => intro i; simp [charLoop, ih]

/-- C9: a lone byte that fails to decode (any byte at all under
`utf-16-le`) gets glyph `'?'` (code point 63) with the error status; the
error flag is set exactly when the decode fails; `format_line` records the
0-based in-line column of every failing byte in the returned
error-position list; and the character column still renders one glyph per
displayed byte, so a decode failure never aborts line rendering. -/
theorem decode_error_flagging (v : Viewer) (offset : Nat) (data : List Nat)
    (b : Nat) (c : Codec) :
    display_printable Codec.utf16le b = (63, true) ∧
    (display_printable c b).2 = decide (decodeOne c b = none) ∧
    (format_line v offset data).2 =
      ((List.enumFrom 0 (displayWindow v offset data)).filter
        (fun p => (display_printable v.encoding p.2).2)).map Prod.fst ∧
    (charLoop v.encoding (displayWindow v offset data) 0).1.length =
      (displayWindow v offset data).length := by
  refine ⟨rfl, ?_, ?_, charLoop_length _ _ _⟩
  · unfold display_printable
    cases hd : decodeOne c b with
    | none => simp
    | some cp =>
      simp only [decide_eq_false_iff_not]
      split <;> simp
  · show (charLoop v.encoding (displayWindow v offset data) 0).2 = _
    exact charLoop_errs _ _ _

/-- The display window as the claim words it: the 16 bytes starting at
`max(0, offset - shift)` clamped to file bounds, left-padded with
`shift - offset` zero bytes and truncated back to 16 when
`offset < shift`. -/
def specShiftWindow (content : List Nat) (shift offset : Nat) : List Nat :=
  let d := (content.drop (offset - shift)).take 16
  if offset < shift then (List.replicate (shift - offset) 0 ++ d).take 16
  else d

theorem take_min_window (content : List Nat) (ss : Nat) :
    (content.drop ss).take (min content.length (ss + 16) - ss) =
      (content.drop ss).take 16 := by
  rcases le_or_lt (ss + 16) content.length with h | h
  · rw [min_eq_right h]
    congr 1
    omega
  · rw [min_eq_left (by omega)]
    rw [List.take_of_length_le (by simp), List.take_of_length_le (by simp; omega)]

/-- C4: with `shift = 0` the display window is exactly the raw window;
with `shift > 0` it is the 16-byte window starting at
`max(0, offset - shift)` clamped to the file, left-padded with
`shift - offset` zero bytes and truncated back to 16 when
`offset < shift`; and the rendered line always begins with the 8-digit
lowercase hexadecimal of the unshifted offset followed by `': '`. -/
theorem display_shift_semantics (v : Viewer) (offset : Nat)
    (data : List Nat) :
    displayWindow v offset data =
      (if v.displayShift = 0 then data
       else specShiftWindow v.content v.displayShift offset) ∧
    ∃ rest, (format_line v offset data).1 =
      pad8Hex offset ++ [':', ' '] ++ rest := by
  constructor
  · by_cases hs : v.displayShift = 0
    · simp [displayWindow, hs]
    · have hd0 := take_min_window v.content (offset - v.displayShift)
      simp only [displayWindow, specShiftWindow]
      rw [if_pos hs, if_neg hs, hd0]
  · refine ⟨ljust (hexSection (displayWindow v offset data)) 50 ++
      [' ', '│'] ++ (charLoop v.encoding (displayWindow v offset data) 0).1 ++
      ['│'] ++ valueSuffix v (displayWindow v offset data), ?_⟩
    simp [format_line, List.append_assoc]

set_option maxRecDepth 100000 in
/-- C6: when `show_values` is on and the display window has at least four
bytes, the line gets an int16 suffix rendering the first two bytes as an
unsigned 16-bit integer under the selected endianness, an int32 suffix
rendering the first four bytes as an unsigned 32-bit integer, and a float
suffix rendering the IEEE-754 value of the first four bytes; shorter
windows get no value suffixes at all.  `fromBytes` is the positional
base-256 value in the selected byte order, and on the 20-byte file of
sequential values 0..19 rendered at offset 0 with little endianness the
suffixes report int16 = 256 and int32 = 50462976. -/
theorem value_suffix_semantics (v : Viewer) (dd : List Nat) (offset : Nat)
    (data : List Nat) (e : Endian) (b0 b1 b2 b3 : Nat) :
    (valueSuffix v dd =
      if v.showValues ∧ 4 ≤ dd.length then
        (" int16: ").toList ++ natDec (fromBytes v.endian (dd.take 2)) ++
        ((" int32: ").toList ++ natDec (fromBytes v.endian (dd.take 4))) ++
        ((" float: ").toList ++
          renderF32 (float32Decode (fromBytes v.endian (dd.take 4))))
      else []) ∧
    (∃ pre, (format_line v offset data).1 =
      pre ++ valueSuffix v (displayWindow v offset data)) ∧
    fromBytes e [b0, b1] =
      (match e with
       | Endian.little => b0 + 256 * b1
       | Endian.big => 256 * b0 + b1) ∧
    fromBytes e [b0, b1, b2, b3] =
      (match e with
       | Endian.little => b0 + 256 * b1 + 65536 * b2 + 16777216 * b3
       | Endian.big => 16777216 * b0 + 65536 * b1 + 256 * b2 + b3) ∧
    fromBytes Endian.little ((rawWindow (List.range 20) 0).take 2) = 256 ∧
    fromBytes Endian.little ((rawWindow (List.range 20) 0).take 4)
      = 50462976 ∧
    (valueSuffix (mkViewer (List.range 20)) (rawWindow (List.range 20) 0) =
      (" int16: ").toList ++ natDec 256 ++
        ((" int32: ").toList ++ natDec 50462976) ++
        ((" float: ").toList ++ renderF32 (float32Decode 50462976)) ∧
     natDec 256 = ['2', '5', '6'] ∧
     natDec 50462976 = ['5', '0', '4', '6', '2', '9', '7', '6']) := by
  refine ⟨?_, ?_, ?_, ?_, by decide, by decide, ?_, by decide, by decide⟩
  · unfold valueSuffix
    by_cases h : v.showValues = true ∧ 4 ≤ dd.length
    · have h4 : 4 ≤ dd.length := h.2
      have h2 : 2 ≤ dd.length := by omega
      simp only [if_pos h, if_pos h2, if_pos h4]
    · simp only [if_neg h]
  · refine ⟨pad8Hex offset ++ [':', ' '] ++
      ljust (hexSection (displayWindow v offset data)) 50 ++
      [' ', '│'] ++ (charLoop v.encoding (displayWindow v offset data) 0).1 ++
      ['│'], ?_⟩
    simp [format_line, List.append_assoc]
  · cases e <;> simp [fromBytes] <;> try ring
  · cases e <;> simp [fromBytes] <;> try ring
  · have e2 : fromBytes (mkViewer (List.range 20)).endian
        ((rawWindow (List.range 20) 0).take 2) = 256 := by decide
    have e4 : fromBytes (mkViewer (List.range 20)).endian
        ((rawWindow (List.range 20) 0).take 4) = 50462976 := by decide
    have hc : (mkViewer (List.range 20)).showValues = true ∧
        4 ≤ (rawWindow (List.range 20) 0).length := by decide
    have hc2 : 2 ≤ (rawWindow (List.range 20) 0).length := by decide
    have hc4 : 4 ≤ (rawWindow (List.range 20) 0).length := by decide
    unfold valueSuffix
    simp only [if_pos hc, if_pos hc2, if_pos hc4, e2, e4]

end SnakeByte
